import Mathlib

/-!
Verification of the `parsePatch` routine of the ForgeDAO front-end
(`src/component/collaboration/proposalDetails.tsx`).

The source is a single pure function over a string:

```
const parsePatch = (patch: string) => {
    const lines = patch.split('\n');
    const changes = [];
    let currentLine = 0;
    for (const line of lines) {
        if (line.startsWith('@@')) {
            const match = line.match(/@@ -(\d+),?\d* \+(\d+),?\d* @@/);
            if (match) { currentLine = parseInt(match[2]); }
        } else if (line.startsWith('+') && !line.startsWith('+++')) {
            changes.push({ type: 'addition', line: currentLine, content: line });
            currentLine++;
        } else if (line.startsWith('-') && !line.startsWith('---')) {
            changes.push({ type: 'deletion', line: currentLine, content: line });
        } else if (!line.startsWith('\\')) {
            currentLine++;
        }
    }
    return changes.slice(0, 10);
};
```

Strings are modelled as `List Char`; `patch.split('\n')` is `splitOnNl`
(JavaScript semantics: the empty string splits into `[""]`, a trailing
newline yields a trailing empty line).  The regular-expression search
`line.match(/@@ -(\d+),?\d* \+(\d+),?\d* @@/)` is modelled by
`searchMatch`, which scans start positions left to right and at each
position runs the deterministic greedy parse of the pattern
(`matchAt`); for this pattern greedy parsing coincides with the
backtracking semantics of the regex engine, because the digit runs
consumed by `\d+`/`\d*` are maximal and an optional comma can never be
profitably skipped (the position after a skipped comma holds a comma,
where the pattern requires a space).  `parseInt` on the captured digit
run is `digitsToNat`.  The loop is `processLines`, structural recursion
on the list of lines with the mutable cursor `currentLine` passed as an
argument; `changes.slice(0, 10)` is `List.take 10`.
-/

/-- Change kind: the `type` field of the records pushed by `parsePatch`. -/
inductive ChangeType where
  | addition : ChangeType
  | deletion : ChangeType
deriving DecidableEq, Repr

/-- One record `{ type, line, content }` pushed onto `changes`. -/
structure Change where
  type : ChangeType
  line : Nat
  content : List Char
deriving DecidableEq, Repr

/-- JavaScript `patch.split('\n')`: `""` yields `[""]`; every newline
character separates two (possibly empty) lines. -/
def splitOnNl : List Char → List (List Char)
  | [] => [[]]
  | c :: cs =>
    if c = '\n' then [] :: splitOnNl cs
    else
      match splitOnNl cs with
      | [] => [[c]]
      | l :: ls => (c :: l) :: ls

/-- JavaScript `line.startsWith(pre)` on the character-list model. -/
def startsWith (pre l : List Char) : Bool :=
  List.isPrefixOf pre l

/-- Maximal digit prefix of a character list, together with the rest:
the text consumed by a greedy `\d*` (or `\d+` when nonempty). -/
def takeDigits : List Char → List Char × List Char
  | [] => ([], [])
  | c :: cs =>
    if c.isDigit then
      let p := takeDigits cs
      (c :: p.1, p.2)
    else ([], c :: cs)

/-- Attempt to match `@@ -(\d+),?\d* \+(\d+),?\d* @@` at the head of the
list, returning the second capture group (the digits of `newStart`).
Greedy and deterministic, which agrees with the regex engine for this
pattern (see the file comment). -/
def matchAt : List Char → Option (List Char)
  | '@' :: '@' :: ' ' :: '-' :: rest =>
    let p1 := takeDigits rest
    if p1.1 = [] then none
    else
      let r1 := match p1.2 with
        | ',' :: t => (takeDigits t).2
        | r => r
      match r1 with
      | ' ' :: '+' :: rest2 =>
        let p2 := takeDigits rest2
        if p2.1 = [] then none
        else
          let r2 := match p2.2 with
            | ',' :: t => (takeDigits t).2
            | r => r
          match r2 with
          | ' ' :: '@' :: '@' :: _ => some p2.1
          | _ => none
      | _ => none
  | _ => none

/-- JavaScript `line.match(/@@ -(\d+),?\d* \+(\d+),?\d* @@/)` projected
to the second capture group: try each start position from the left,
return the capture of the first position at which the pattern matches,
`none` when no position matches. -/
def searchMatch : List Char → Option (List Char)
  | [] => none
  | c :: cs =>
    match matchAt (c :: cs) with
    | some ds => some ds
    | none => searchMatch cs

/-- JavaScript `parseInt` on a nonempty all-digit capture: the decimal
value of the digit string. -/
def digitsToNat (ds : List Char) : Nat :=
  ds.foldl (fun n c => 10 * n + (c.toNat - '0'.toNat)) 0

/-- The `for (const line of lines)` loop of `parsePatch`: `cur` is the
mutable `currentLine`, the returned list is the final `changes` array
(before `slice(0, 10)`), in push order. -/
def processLines : Nat → List (List Char) → List Change
  | _, [] => []
  | cur, l :: ls =>
    if startsWith ['@', '@'] l then
      match searchMatch l with
      | some ds => processLines (digitsToNat ds) ls
      | none => processLines cur ls
    else if startsWith ['+'] l && !startsWith ['+', '+', '+'] l then
      ⟨.addition, cur, l⟩ :: processLines (cur + 1) ls
    else if startsWith ['-'] l && !startsWith ['-', '-', '-'] l then
      ⟨.deletion, cur, l⟩ :: processLines cur ls
    else if !startsWith ['\\'] l then
      processLines (cur + 1) ls
    else
      processLines cur ls

/-- The full sequence of records `parsePatch` pushes, before the
display truncation `slice(0, 10)`. -/
def parsePatchAll (patch : String) : List Change :=
  processLines 0 (splitOnNl patch.data)

/-- The source function `parsePatch`: split into lines, run the loop
from `currentLine = 0`, truncate to the first 10 records. -/
def parsePatch (patch : String) : List Change :=
  (parsePatchAll patch).take 10

/-- A line that the loop turns into a record: it starts with `+` but not
`+++`, or with `-` but not `---`. -/
def qualifying (l : List Char) : Bool :=
  (startsWith ['+'] l && !startsWith ['+', '+', '+'] l) ||
  (startsWith ['-'] l && !startsWith ['-', '-', '-'] l)

/-- The optional `,<len>` part of one side of a hunk header: absent, or a
comma followed by the length's digits. -/
def commaPart : Option (List Char) → List Char
  | none => []
  | some ds => ',' :: ds

/-- A line of the exact form `@@ -<d1>[,<o1>] +<d2>[,<o2>] @@`, each
placeholder standing for a digit string. -/
def headerLine (d1 : List Char) (o1 : Option (List Char))
    (d2 : List Char) (o2 : Option (List Char)) : List Char :=
  '@' :: '@' :: ' ' :: '-' ::
    (d1 ++ commaPart o1 ++ (' ' :: '+' :: (d2 ++ commaPart o2 ++ [' ', '@', '@'])))

/-! ### Step lemmas: one equation per branch of the loop body -/

theorem startsWith_head {c : Char} {l : List Char}
    (h : startsWith [c] l = true) : ∃ t, l = c :: t := by
  cases l with
  | nil => simp [startsWith, List.isPrefixOf] at h
  | cons c' t =>
    simp only [startsWith, List.isPrefixOf, Bool.and_eq_true, beq_iff_eq] at h
    exact ⟨t, by rw [h.1]⟩

theorem startsWith_cons_false {c d : Char} {cs t : List Char} (h : c ≠ d) :
    startsWith (c :: cs) (d :: t) = false := by
  simp [startsWith, List.isPrefixOf, h]

theorem processLines_header_some {l ds : List Char}
    (h1 : startsWith ['@', '@'] l = true) (h2 : searchMatch l = some ds)
    (cur : Nat) (ls : List (List Char)) :
    processLines cur (l :: ls) = processLines (digitsToNat ds) ls := by
  simp [processLines, h1, h2]

theorem processLines_header_none {l : List Char}
    (h1 : startsWith ['@', '@'] l = true) (h2 : searchMatch l = none)
    (cur : Nat) (ls : List (List Char)) :
    processLines cur (l :: ls) = processLines cur ls := by
  simp [processLines, h1, h2]

theorem processLines_add {l : List Char}
    (h1 : startsWith ['+'] l = true) (h2 : startsWith ['+', '+', '+'] l = false)
    (cur : Nat) (ls : List (List Char)) :
    processLines cur (l :: ls) = ⟨.addition, cur, l⟩ :: processLines (cur + 1) ls := by
  obtain ⟨t, rfl⟩ := startsWith_head h1
  have h0 : startsWith ['@', '@'] ('+' :: t) = false :=
    startsWith_cons_false (by decide)
  simp [processLines, h0, h1, h2]

theorem processLines_del {l : List Char}
    (h1 : startsWith ['-'] l = true) (h2 : startsWith ['-', '-', '-'] l = false)
    (cur : Nat) (ls : List (List Char)) :
    processLines cur (l :: ls) = ⟨.deletion, cur, l⟩ :: processLines cur ls := by
  obtain ⟨t, rfl⟩ := startsWith_head h1
  have h0 : startsWith ['@', '@'] ('-' :: t) = false :=
    startsWith_cons_false (by decide)
  have hp : startsWith ['+'] ('-' :: t) = false :=
    startsWith_cons_false (by decide)
  simp [processLines, h0, hp, h1, h2]

theorem processLines_context {l : List Char}
    (h0 : startsWith ['@', '@'] l = false)
    (hp : startsWith ['+'] l = false ∨ startsWith ['+', '+', '+'] l = true)
    (hm : startsWith ['-'] l = false ∨ startsWith ['-', '-', '-'] l = true)
    (hb : startsWith ['\\'] l = false)
    (cur : Nat) (ls : List (List Char)) :
    processLines cur (l :: ls) = processLines (cur + 1) ls := by
  rcases hp with hp | hp <;> rcases hm with hm | hm <;>
    simp [processLines, h0, hp, hm, hb]

theorem processLines_backslash {l : List Char}
    (hb : startsWith ['\\'] l = true)
    (cur : Nat) (ls : List (List Char)) :
    processLines cur (l :: ls) = processLines cur ls := by
  obtain ⟨t, rfl⟩ := startsWith_head hb
  have h0 : startsWith ['@', '@'] ('\\' :: t) = false :=
    startsWith_cons_false (by decide)
  have hp : startsWith ['+'] ('\\' :: t) = false :=
    startsWith_cons_false (by decide)
  have hm : startsWith ['-'] ('\\' :: t) = false :=
    startsWith_cons_false (by decide)
  simp [processLines, h0, hp, hm, hb]

/-! ### Hunk-header lines of the documented form are recognized -/

theorem takeDigits_append {ds rest : List Char}
    (hd : ∀ c ∈ ds, c.isDigit = true)
    (hr : ∀ c t, rest = c :: t → c.isDigit = false) :
    takeDigits (ds ++ rest) = (ds, rest) := by
  induction ds with
  | nil =>
    simp only [List.nil_append]
    cases rest with
    | nil => rfl
    | cons c t => simp [takeDigits, hr c t rfl]
  | cons d ds ih =>
    have hdd : d.isDigit = true := hd d (by simp)
    have ih' := ih fun c hc => hd c (by simp [hc])
    simp [takeDigits, hdd, ih']

theorem isDigit_false_of_cons_eq {a : Char} {X : List Char} {c : Char} {t : List Char}
    (h : a :: X = c :: t) (ha : a.isDigit = false) : c.isDigit = false := by
  injection h with h1 _
  rw [← h1]; exact ha

theorem matchAt_headerLine {d1 d2 : List Char} {o1 o2 : Option (List Char)}
    (h1 : d1 ≠ []) (h2 : d2 ≠ [])
    (hd1 : ∀ c ∈ d1, c.isDigit = true) (hd2 : ∀ c ∈ d2, c.isDigit = true)
    (ho1 : ∀ ds ∈ o1, ∀ c ∈ ds, c.isDigit = true)
    (ho2 : ∀ ds ∈ o2, ∀ c ∈ ds, c.isDigit = true) :
    matchAt (headerLine d1 o1 d2 o2) = some d2 := by
  cases o1 with
  | none =>
    cases o2 with
    | none =>
      have ht2 : takeDigits (d2 ++ [' ', '@', '@']) = (d2, [' ', '@', '@']) :=
        takeDigits_append hd2 fun c t h => isDigit_false_of_cons_eq h (by decide)
      have ht1 : takeDigits (d1 ++ (' ' :: '+' :: (d2 ++ [' ', '@', '@']))) =
          (d1, ' ' :: '+' :: (d2 ++ [' ', '@', '@'])) :=
        takeDigits_append hd1 fun c t h => isDigit_false_of_cons_eq h (by decide)
      simp only [headerLine, commaPart, List.append_nil, List.cons_append,
        List.nil_append, List.append_assoc]
      simp [matchAt, ht1, ht2, h1, h2]
    | some bs2 =>
      have htb2 : takeDigits (bs2 ++ [' ', '@', '@']) = (bs2, [' ', '@', '@']) :=
        takeDigits_append (ho2 bs2 rfl) fun c t h => isDigit_false_of_cons_eq h (by decide)
      have ht2 : takeDigits (d2 ++ (',' :: (bs2 ++ [' ', '@', '@']))) =
          (d2, ',' :: (bs2 ++ [' ', '@', '@'])) :=
        takeDigits_append hd2 fun c t h => isDigit_false_of_cons_eq h (by decide)
      have ht1 : takeDigits (d1 ++ (' ' :: '+' :: (d2 ++ (',' :: (bs2 ++ [' ', '@', '@']))))) =
          (d1, ' ' :: '+' :: (d2 ++ (',' :: (bs2 ++ [' ', '@', '@'])))) :=
        takeDigits_append hd1 fun c t h => isDigit_false_of_cons_eq h (by decide)
      simp only [headerLine, commaPart, List.append_nil, List.cons_append,
        List.nil_append, List.append_assoc]
      simp [matchAt, ht1, ht2, htb2, h1, h2]
  | some bs1 =>
    cases o2 with
    | none =>
      have ht2 : takeDigits (d2 ++ [' ', '@', '@']) = (d2, [' ', '@', '@']) :=
        takeDigits_append hd2 fun c t h => isDigit_false_of_cons_eq h (by decide)
      have htb1 : takeDigits (bs1 ++ (' ' :: '+' :: (d2 ++ [' ', '@', '@']))) =
          (bs1, ' ' :: '+' :: (d2 ++ [' ', '@', '@'])) :=
        takeDigits_append (ho1 bs1 rfl) fun c t h => isDigit_false_of_cons_eq h (by decide)
      have ht1 : takeDigits (d1 ++ (',' :: (bs1 ++ (' ' :: '+' :: (d2 ++ [' ', '@', '@']))))) =
          (d1, ',' :: (bs1 ++ (' ' :: '+' :: (d2 ++ [' ', '@', '@'])))) :=
        takeDigits_append hd1 fun c t h => isDigit_false_of_cons_eq h (by decide)
      simp only [headerLine, commaPart, List.append_nil, List.cons_append,
        List.nil_append, List.append_assoc]
      simp [matchAt, ht1, htb1, ht2, h1, h2]
    | some bs2 =>
      have htb2 : takeDigits (bs2 ++ [' ', '@', '@']) = (bs2, [' ', '@', '@']) :=
        takeDigits_append (ho2 bs2 rfl) fun c t h => isDigit_false_of_cons_eq h (by decide)
      have ht2 : takeDigits (d2 ++ (',' :: (bs2 ++ [' ', '@', '@']))) =
          (d2, ',' :: (bs2 ++ [' ', '@', '@'])) :=
        takeDigits_append hd2 fun c t h => isDigit_false_of_cons_eq h (by decide)
      have htb1 : takeDigits (bs1 ++ (' ' :: '+' :: (d2 ++ (',' :: (bs2 ++ [' ', '@', '@']))))) =
          (bs1, ' ' :: '+' :: (d2 ++ (',' :: (bs2 ++ [' ', '@', '@'])))) :=
        takeDigits_append (ho1 bs1 rfl) fun c t h => isDigit_false_of_cons_eq h (by decide)
      have ht1 : takeDigits
          (d1 ++ (',' :: (bs1 ++ (' ' :: '+' :: (d2 ++ (',' :: (bs2 ++ [' ', '@', '@']))))))) =
          (d1, ',' :: (bs1 ++ (' ' :: '+' :: (d2 ++ (',' :: (bs2 ++ [' ', '@', '@'])))))) :=
        takeDigits_append hd1 fun c t h => isDigit_false_of_cons_eq h (by decide)
      simp only [headerLine, commaPart, List.append_nil, List.cons_append,
        List.nil_append, List.append_assoc]
      simp [matchAt, ht1, htb1, ht2, htb2, h1, h2]

theorem searchMatch_cons_some {c : Char} {cs ds : List Char}
    (h : matchAt (c :: cs) = some ds) : searchMatch (c :: cs) = some ds := by
  simp [searchMatch, h]

theorem searchMatch_headerLine {d1 d2 : List Char} {o1 o2 : Option (List Char)}
    (h1 : d1 ≠ []) (h2 : d2 ≠ [])
    (hd1 : ∀ c ∈ d1, c.isDigit = true) (hd2 : ∀ c ∈ d2, c.isDigit = true)
    (ho1 : ∀ ds ∈ o1, ∀ c ∈ ds, c.isDigit = true)
    (ho2 : ∀ ds ∈ o2, ∀ c ∈ ds, c.isDigit = true) :
    searchMatch (headerLine d1 o1 d2 o2) = some d2 := by
  have hm := matchAt_headerLine h1 h2 hd1 hd2 ho1 ho2
  exact searchMatch_cons_some hm

/-! ### Counting, membership and monotonicity invariants of the loop -/

theorem startsWith_two {c d : Char} {l : List Char}
    (h : startsWith [c, d] l = true) : ∃ t, l = c :: d :: t := by
  cases l with
  | nil => simp [startsWith, List.isPrefixOf] at h
  | cons a t =>
    cases t with
    | nil => simp [startsWith, List.isPrefixOf] at h
    | cons b t' =>
      simp only [startsWith, List.isPrefixOf, Bool.and_eq_true, beq_iff_eq] at h
      exact ⟨t', by rw [h.1, h.2.1]⟩

theorem startsWith_three {c d e : Char} {l : List Char}
    (h : startsWith [c, d, e] l = true) : ∃ t, l = c :: d :: e :: t := by
  cases l with
  | nil => simp [startsWith, List.isPrefixOf] at h
  | cons a t =>
    cases t with
    | nil => simp [startsWith, List.isPrefixOf] at h
    | cons b t' =>
      cases t' with
      | nil => simp [startsWith, List.isPrefixOf] at h
      | cons e' t'' =>
        simp only [startsWith, List.isPrefixOf, Bool.and_eq_true, beq_iff_eq] at h
        exact ⟨t'', by rw [h.1, h.2.1, h.2.2.1]⟩

theorem and_not_eq_false {a b : Bool} (h : (a && !b) = false) :
    a = false ∨ b = true := by
  cases a <;> cases b <;> simp_all

theorem length_processLines (ls : List (List Char)) :
    ∀ cur, (processLines cur ls).length = ls.countP qualifying := by
  induction ls with
  | nil => intro cur; simp [processLines]
  | cons l ls ih =>
    intro cur
    cases h0 : startsWith ['@', '@'] l with
    | true =>
      obtain ⟨t, rfl⟩ := startsWith_two h0
      have hp : startsWith ['+'] ('@' :: '@' :: t) = false :=
        startsWith_cons_false (by decide)
      have hm : startsWith ['-'] ('@' :: '@' :: t) = false :=
        startsWith_cons_false (by decide)
      have hq : qualifying ('@' :: '@' :: t) = false := by simp [qualifying, hp, hm]
      cases hs : searchMatch ('@' :: '@' :: t) with
      | some ds =>
        rw [processLines_header_some h0 hs]
        simp [ih, List.countP_cons, hq]
      | none =>
        rw [processLines_header_none h0 hs]
        simp [ih, List.countP_cons, hq]
    | false =>
      cases hA : (startsWith ['+'] l && !startsWith ['+', '+', '+'] l) with
      | true =>
        obtain ⟨hA1, hA2⟩ := Bool.and_eq_true _ _ |>.mp hA
        have hA2' : startsWith ['+', '+', '+'] l = false := by simpa using hA2
        rw [processLines_add hA1 hA2']
        have hq : qualifying l = true := by simp [qualifying, hA1, hA2']
        simp [ih, List.countP_cons, hq]
      | false =>
        cases hB : (startsWith ['-'] l && !startsWith ['-', '-', '-'] l) with
        | true =>
          obtain ⟨hB1, hB2⟩ := Bool.and_eq_true _ _ |>.mp hB
          have hB2' : startsWith ['-', '-', '-'] l = false := by simpa using hB2
          rw [processLines_del hB1 hB2']
          have hq : qualifying l = true := by simp [qualifying, hB1, hB2']
          simp [ih, List.countP_cons, hq]
        | false =>
          have hq : qualifying l = false := by simp [qualifying, hA, hB]
          cases hsl : startsWith ['\\'] l with
          | true =>
            rw [processLines_backslash hsl]
            simp [ih, List.countP_cons, hq]
          | false =>
            rw [processLines_context h0 (and_not_eq_false hA) (and_not_eq_false hB) hsl]
            simp [ih, List.countP_cons, hq]

theorem mem_processLines {ch : Change} (ls : List (List Char)) :
    ∀ cur, ch ∈ processLines cur ls →
      ch.content ∈ ls ∧
      ((ch.type = ChangeType.addition ∧ startsWith ['+'] ch.content = true ∧
          startsWith ['+', '+', '+'] ch.content = false) ∨
       (ch.type = ChangeType.deletion ∧ startsWith ['-'] ch.content = true ∧
          startsWith ['-', '-', '-'] ch.content = false)) := by
  induction ls with
  | nil => intro cur h; simp [processLines] at h
  | cons l ls ih =>
    intro cur h
    cases h0 : startsWith ['@', '@'] l with
    | true =>
      cases hs : searchMatch l with
      | some ds =>
        rw [processLines_header_some h0 hs] at h
        obtain ⟨hmem, hrest⟩ := ih _ h
        exact ⟨List.mem_cons_of_mem _ hmem, hrest⟩
      | none =>
        rw [processLines_header_none h0 hs] at h
        obtain ⟨hmem, hrest⟩ := ih _ h
        exact ⟨List.mem_cons_of_mem _ hmem, hrest⟩
    | false =>
      cases hA : (startsWith ['+'] l && !startsWith ['+', '+', '+'] l) with
      | true =>
        obtain ⟨hA1, hA2⟩ := Bool.and_eq_true _ _ |>.mp hA
        have hA2' : startsWith ['+', '+', '+'] l = false := by simpa using hA2
        rw [processLines_add hA1 hA2'] at h
        rcases List.mem_cons.mp h with hh | hh
        · subst hh
          exact ⟨List.mem_cons_self _ _, Or.inl ⟨rfl, hA1, hA2'⟩⟩
        · obtain ⟨hmem, hrest⟩ := ih _ hh
          exact ⟨List.mem_cons_of_mem _ hmem, hrest⟩
      | false =>
        cases hB : (startsWith ['-'] l && !startsWith ['-', '-', '-'] l) with
        | true =>
          obtain ⟨hB1, hB2⟩ := Bool.and_eq_true _ _ |>.mp hB
          have hB2' : startsWith ['-', '-', '-'] l = false := by simpa using hB2
          rw [processLines_del hB1 hB2'] at h
          rcases List.mem_cons.mp h with hh | hh
          · subst hh
            exact ⟨List.mem_cons_self _ _, Or.inr ⟨rfl, hB1, hB2'⟩⟩
          · obtain ⟨hmem, hrest⟩ := ih _ hh
            exact ⟨List.mem_cons_of_mem _ hmem, hrest⟩
        | false =>
          cases hsl : startsWith ['\\'] l with
          | true =>
            rw [processLines_backslash hsl] at h
            obtain ⟨hmem, hrest⟩ := ih _ h
            exact ⟨List.mem_cons_of_mem _ hmem, hrest⟩
          | false =>
            rw [processLines_context h0 (and_not_eq_false hA) (and_not_eq_false hB) hsl] at h
            obtain ⟨hmem, hrest⟩ := ih _ h
            exact ⟨List.mem_cons_of_mem _ hmem, hrest⟩

theorem processLines_mono {ls : List (List Char)}
    (hno : ∀ l ∈ ls, startsWith ['@', '@'] l = false) :
    ∀ cur, (∀ ch ∈ processLines cur ls, cur ≤ ch.line) ∧
      List.Pairwise (fun a b : Change => a.line ≤ b.line) (processLines cur ls) := by
  induction ls with
  | nil => intro cur; simp [processLines]
  | cons l ls ih =>
    intro cur
    have h0 : startsWith ['@', '@'] l = false := hno l (List.mem_cons_self _ _)
    have ih' := ih fun l' hl' => hno l' (List.mem_cons_of_mem _ hl')
    cases hA : (startsWith ['+'] l && !startsWith ['+', '+', '+'] l) with
    | true =>
      obtain ⟨hA1, hA2⟩ := Bool.and_eq_true _ _ |>.mp hA
      have hA2' : startsWith ['+', '+', '+'] l = false := by simpa using hA2
      rw [processLines_add hA1 hA2']
      obtain ⟨hall, hpw⟩ := ih' (cur + 1)
      refine ⟨?_, ?_⟩
      · intro ch hch
        rcases List.mem_cons.mp hch with hh | hh
        · subst hh; exact Nat.le_refl _
        · exact Nat.le_trans (Nat.le_succ _) (hall ch hh)
      · exact List.pairwise_cons.mpr
          ⟨fun b hb => Nat.le_trans (Nat.le_succ _) (hall b hb), hpw⟩
    | false =>
      cases hB : (startsWith ['-'] l && !startsWith ['-', '-', '-'] l) with
      | true =>
        obtain ⟨hB1, hB2⟩ := Bool.and_eq_true _ _ |>.mp hB
        have hB2' : startsWith ['-', '-', '-'] l = false := by simpa using hB2
        rw [processLines_del hB1 hB2']
        obtain ⟨hall, hpw⟩ := ih' cur
        refine ⟨?_, ?_⟩
        · intro ch hch
          rcases List.mem_cons.mp hch with hh | hh
          · subst hh; exact Nat.le_refl _
          · exact hall ch hh
        · exact List.pairwise_cons.mpr ⟨fun b hb => hall b hb, hpw⟩
      | false =>
        cases hsl : startsWith ['\\'] l with
        | true =>
          rw [processLines_backslash hsl]
          exact ih' cur
        | false =>
          rw [processLines_context h0 (and_not_eq_false hA) (and_not_eq_false hB) hsl]
          obtain ⟨hall, hpw⟩ := ih' (cur + 1)
          exact ⟨fun ch hch => Nat.le_trans (Nat.le_succ _) (hall ch hch), hpw⟩

/-! ### Claims -/

/-- C1 counterexample: the claim says a line that is not an
addition/deletion line, does not start with `\`, and is not a recognized
hunk header increments `currentLine` without emitting a record.  The
line `@@x` is such a line (it starts with `@@` but the regex finds no
match in it), yet the loop leaves `currentLine` unchanged: on the input
`"@@x\n+y"` the addition is recorded at line 0, not at line 1 as the
claim requires. -/
theorem parsePatch_C1_counterexample :
    searchMatch ['@', '@', 'x'] = none ∧
    parsePatch "@@x\n+y" = [⟨ChangeType.addition, 0, ['+', 'y']⟩] ∧
    parsePatch "@@x\n+y" ≠ [⟨ChangeType.addition, 1, ['+', 'y']⟩] := by
  decide

/-- C1 (amended): `parsePatch` runs the loop from `currentLine = 0` and
truncates to 10 records; a line starting with `+` but not `+++` emits an
addition at `currentLine` and increments it; a line starting with `-`
but not `---` emits a deletion at `currentLine` without incrementing;
any other line starting with neither `\` nor `@@` increments
`currentLine` without emitting; a line starting with `\` is a no-op, and
so is a line starting with `@@` in which the hunk-header pattern finds
no match. -/
theorem parsePatch_C1_amended :
    (∀ patch : String,
      parsePatch patch = (processLines 0 (splitOnNl patch.data)).take 10) ∧
    (∀ (cur : Nat) (l : List Char) (ls : List (List Char)),
      (startsWith ['+'] l = true → startsWith ['+', '+', '+'] l = false →
        processLines cur (l :: ls) =
          ⟨ChangeType.addition, cur, l⟩ :: processLines (cur + 1) ls) ∧
      (startsWith ['-'] l = true → startsWith ['-', '-', '-'] l = false →
        processLines cur (l :: ls) =
          ⟨ChangeType.deletion, cur, l⟩ :: processLines cur ls) ∧
      (startsWith ['@', '@'] l = false →
        (startsWith ['+'] l = false ∨ startsWith ['+', '+', '+'] l = true) →
        (startsWith ['-'] l = false ∨ startsWith ['-', '-', '-'] l = true) →
        startsWith ['\\'] l = false →
        processLines cur (l :: ls) = processLines (cur + 1) ls) ∧
      (startsWith ['\\'] l = true →
        processLines cur (l :: ls) = processLines cur ls) ∧
      (startsWith ['@', '@'] l = true → searchMatch l = none →
        processLines cur (l :: ls) = processLines cur ls)) :=
  ⟨fun _ => rfl, fun cur _l ls =>
    ⟨fun h1 h2 => processLines_add h1 h2 cur ls,
     fun h1 h2 => processLines_del h1 h2 cur ls,
     fun h0 hp hm hb => processLines_context h0 hp hm hb cur ls,
     fun hb => processLines_backslash hb cur ls,
     fun h0 hs => processLines_header_none h0 hs cur ls⟩⟩

/-- C1 witness: the addition clause of the amended claim, instantiated
at cursor 5 on the single line `+a`. -/
theorem parsePatch_C1_amended_witness :
    processLines 5 [['+', 'a']] = [⟨ChangeType.addition, 5, ['+', 'a']⟩] := by
  have h := (parsePatch_C1_amended.2 5 ['+', 'a'] []).1 (by decide) (by decide)
  simpa [processLines] using h

/-- C2: on `"@@ -1,3 +1,3 @@\n context\n-old line\n+new line\n"` the
function returns exactly the deletion at line 2 followed by the addition
at line 2. -/
theorem parsePatch_C2 :
    parsePatch "@@ -1,3 +1,3 @@\n context\n-old line\n+new line\n" =
      [⟨ChangeType.deletion, 2, "-old line".data⟩,
       ⟨ChangeType.addition, 2, "+new line".data⟩] := by
  decide

/-- C3: the output never holds more than 10 records, and when the input
has more than 10 qualifying addition/deletion lines the output is
exactly the first 10 emitted records in emission order. -/
theorem parsePatch_C3 (patch : String) :
    (parsePatch patch).length ≤ 10 ∧
    (10 < (splitOnNl patch.data).countP qualifying →
      (parsePatch patch).length = 10 ∧
      parsePatch patch = (parsePatchAll patch).take 10) := by
  have hlen : (parsePatchAll patch).length =
      (splitOnNl patch.data).countP qualifying :=
    length_processLines _ 0
  constructor
  · simp [parsePatch, List.length_take]
  · intro hgt
    refine ⟨?_, rfl⟩
    rw [parsePatch, List.length_take, hlen]
    omega

/-- C3 witness: twelve addition lines are truncated to ten records. -/
theorem parsePatch_C3_witness :
    (parsePatch "+a\n+b\n+c\n+d\n+e\n+f\n+g\n+h\n+i\n+j\n+k\n+l").length = 10 :=
  ((parsePatch_C3 "+a\n+b\n+c\n+d\n+e\n+f\n+g\n+h\n+i\n+j\n+k\n+l").2
    (by decide)).1

/-- C4: a line of the exact hunk-header form
`@@ -<old>[,<len>] +<new>[,<len>] @@` sets `currentLine` to the value of
the `<new>` digit string and emits no record, whatever the cursor value
accumulated before it; the comma-separated lengths may be absent on
either side. -/
theorem parsePatch_C4 (d1 d2 : List Char) (o1 o2 : Option (List Char))
    (h1 : d1 ≠ []) (h2 : d2 ≠ [])
    (hd1 : ∀ c ∈ d1, c.isDigit = true) (hd2 : ∀ c ∈ d2, c.isDigit = true)
    (ho1 : ∀ ds ∈ o1, ∀ c ∈ ds, c.isDigit = true)
    (ho2 : ∀ ds ∈ o2, ∀ c ∈ ds, c.isDigit = true)
    (cur : Nat) (ls : List (List Char)) :
    processLines cur (headerLine d1 o1 d2 o2 :: ls) =
      processLines (digitsToNat d2) ls := by
  have hsw : startsWith ['@', '@'] (headerLine d1 o1 d2 o2) = true := by
    simp [headerLine, startsWith, List.isPrefixOf]
  exact processLines_header_some hsw
    (searchMatch_headerLine h1 h2 hd1 hd2 ho1 ho2) cur ls

/-- C4 witness: the comma-free header `@@ -5 +5 @@` resets a cursor of 7
to 5, so the following addition is recorded at line 5. -/
theorem parsePatch_C4_witness :
    headerLine ['5'] none ['5'] none = "@@ -5 +5 @@".data ∧
    processLines 7 [headerLine ['5'] none ['5'] none, ['+', 'x']] =
      [⟨ChangeType.addition, 5, ['+', 'x']⟩] := by
  constructor
  · decide
  · rw [parsePatch_C4 ['5'] ['5'] none none (by decide) (by decide)
      (by intro c hc; rw [List.mem_singleton] at hc; subst hc; decide)
      (by intro c hc; rw [List.mem_singleton] at hc; subst hc; decide)
      (fun ds h => absurd h (Option.not_mem_none ds))
      (fun ds h => absurd h (Option.not_mem_none ds))
      7 [['+', 'x']]]
    decide

/-- C5 counterexample: `@@!` starts with `@@` and the pattern finds no
match in it, yet processing it does not increment `currentLine`: the
result differs from processing the remaining lines with the cursor
advanced by 1, contradicting the claim. -/
theorem parsePatch_C5_counterexample :
    startsWith ['@', '@'] ['@', '@', '!'] = true ∧
    searchMatch ['@', '@', '!'] = none ∧
    processLines 0 [['@', '@', '!'], ['+', 'z']] =
      [⟨ChangeType.addition, 0, ['+', 'z']⟩] ∧
    processLines 0 [['@', '@', '!'], ['+', 'z']] ≠
      processLines 1 [['+', 'z']] := by
  decide

/-- C5 (amended): a line that starts with `@@` but in which the
hunk-header pattern finds no match is a no-op: it emits no record and
leaves `currentLine` unchanged. -/
theorem parsePatch_C5_amended (cur : Nat) (l : List Char)
    (ls : List (List Char))
    (h1 : startsWith ['@', '@'] l = true) (h2 : searchMatch l = none) :
    processLines cur (l :: ls) = processLines cur ls :=
  processLines_header_none h1 h2 cur ls

/-- C5 witness: the malformed header `@@?` is skipped with the cursor
still at 3. -/
theorem parsePatch_C5_amended_witness :
    processLines 3 [['@', '@', '?'], ['-', 'q']] =
      processLines 3 [['-', 'q']] :=
  parsePatch_C5_amended 3 ['@', '@', '?'] [['-', 'q']] (by decide) (by decide)

/-- C6: file-header lines are never turned into records: a line starting
with `+++` or `---` is treated as a context line (the loop advances the
cursor and emits nothing), and accordingly no record in any output has a
content starting with `+++` or `---`. -/
theorem parsePatch_C6 :
    (∀ (cur : Nat) (l : List Char) (ls : List (List Char)),
      startsWith ['+', '+', '+'] l = true ∨ startsWith ['-', '-', '-'] l = true →
      processLines cur (l :: ls) = processLines (cur + 1) ls) ∧
    (∀ (patch : String), ∀ ch ∈ parsePatch patch,
      startsWith ['+', '+', '+'] ch.content = false ∧
      startsWith ['-', '-', '-'] ch.content = false) := by
  constructor
  · intro cur l ls h
    rcases h with h | h
    · obtain ⟨t, rfl⟩ := startsWith_three h
      have h0 : startsWith ['@', '@'] ('+' :: '+' :: '+' :: t) = false :=
        startsWith_cons_false (by decide)
      have hm : startsWith ['-'] ('+' :: '+' :: '+' :: t) = false :=
        startsWith_cons_false (by decide)
      have hb : startsWith ['\\'] ('+' :: '+' :: '+' :: t) = false :=
        startsWith_cons_false (by decide)
      exact processLines_context h0 (Or.inr h) (Or.inl hm) hb cur ls
    · obtain ⟨t, rfl⟩ := startsWith_three h
      have h0 : startsWith ['@', '@'] ('-' :: '-' :: '-' :: t) = false :=
        startsWith_cons_false (by decide)
      have hp : startsWith ['+'] ('-' :: '-' :: '-' :: t) = false :=
        startsWith_cons_false (by decide)
      have hb : startsWith ['\\'] ('-' :: '-' :: '-' :: t) = false :=
        startsWith_cons_false (by decide)
      exact processLines_context h0 (Or.inl hp) (Or.inr h) hb cur ls
  · intro patch ch hch
    have hall : ch ∈ parsePatchAll patch := List.take_subset 10 _ hch
    obtain ⟨_, hrest⟩ := mem_processLines _ 0 hall
    rcases hrest with ⟨_, hp, hpp⟩ | ⟨_, hm, hmm⟩
    · obtain ⟨t, he⟩ := startsWith_head hp
      refine ⟨hpp, ?_⟩
      rw [he]; exact startsWith_cons_false (by decide)
    · obtain ⟨t, he⟩ := startsWith_head hm
      refine ⟨?_, hmm⟩
      rw [he]; exact startsWith_cons_false (by decide)

/-- C6 witness: the file-header line `+++ b` emits nothing and only
advances the cursor, so the following deletion is recorded at line 1. -/
theorem parsePatch_C6_witness :
    processLines 0 [['+', '+', '+', ' ', 'b'], ['-', 'w']] =
      [⟨ChangeType.deletion, 1, ['-', 'w']⟩] := by
  rw [parsePatch_C6.1 0 ['+', '+', '+', ' ', 'b'] [['-', 'w']]
    (Or.inl (by decide))]
  decide

/-- C7: the empty string yields the empty sequence, and so does every
input none of whose lines starts with `+`, `-`, or `@@`. -/
theorem parsePatch_C7 :
    parsePatch "" = [] ∧
    ∀ patch : String,
      (∀ l ∈ splitOnNl patch.data,
        startsWith ['+'] l = false ∧ startsWith ['-'] l = false ∧
        startsWith ['@', '@'] l = false) →
      parsePatch patch = [] := by
  constructor
  · decide
  · intro patch h
    have hq : ∀ l ∈ splitOnNl patch.data, ¬ qualifying l = true := by
      intro l hl
      obtain ⟨hp, hm, _⟩ := h l hl
      simp [qualifying, hp, hm]
    have hlen : (parsePatchAll patch).length = 0 := by
      rw [show parsePatchAll patch = processLines 0 (splitOnNl patch.data) from rfl,
        length_processLines _ 0]
      exact List.countP_eq_zero.mpr hq
    have hnil : parsePatchAll patch = [] := List.length_eq_zero.mp hlen
    rw [parsePatch, hnil]
    rfl

/-- C7 witness: a two-line input of pure context lines yields no
records. -/
theorem parsePatch_C7_witness : parsePatch "hello\nworld" = [] :=
  parsePatch_C7.2 "hello\nworld" (by decide)

/-- C8: `parsePatch` is a function of its input string alone: it is
total (defined by structural recursion over the split lines, so every
input yields a result) and deterministic, two applications to equal
strings returning equal record sequences. -/
theorem parsePatch_C8 (s t : String) (h : s = t) :
    parsePatch s = parsePatch t := by
  rw [h]

/-- C8 witness: determinism at the empty string. -/
theorem parsePatch_C8_witness : parsePatch "" = parsePatch "" :=
  parsePatch_C8 "" "" rfl

/-- C9: every output record's content is, character for character, one
of the input's newline-separated lines; addition contents start with
`+`, deletion contents start with `-`, and no content is empty. -/
theorem parsePatch_C9 (patch : String) (ch : Change)
    (h : ch ∈ parsePatch patch) :
    ch.content ∈ splitOnNl patch.data ∧
    (ch.type = ChangeType.addition → startsWith ['+'] ch.content = true) ∧
    (ch.type = ChangeType.deletion → startsWith ['-'] ch.content = true) ∧
    ch.content ≠ [] := by
  have hall : ch ∈ parsePatchAll patch := List.take_subset 10 _ h
  obtain ⟨hmem, hrest⟩ := mem_processLines _ 0 hall
  rcases hrest with ⟨hty, hp, _⟩ | ⟨hty, hm, _⟩
  · obtain ⟨t, he⟩ := startsWith_head hp
    refine ⟨hmem, fun _ => hp, fun hd => ?_, ?_⟩
    · rw [hty] at hd; exact absurd hd (by decide)
    · rw [he]; exact List.cons_ne_nil _ _
  · obtain ⟨t, he⟩ := startsWith_head hm
    refine ⟨hmem, fun ha => ?_, fun _ => hm, ?_⟩
    · rw [hty] at ha; exact absurd ha (by decide)
    · rw [he]; exact List.cons_ne_nil _ _

/-- C9 witness: the deletion record of the worked example carries the
input line `-old line` verbatim. -/
theorem parsePatch_C9_witness :
    "-old line".data ∈
      splitOnNl "@@ -1,3 +1,3 @@\n context\n-old line\n+new line\n".data :=
  (parsePatch_C9 "@@ -1,3 +1,3 @@\n context\n-old line\n+new line\n"
    ⟨ChangeType.deletion, 2, "-old line".data⟩ (by decide)).1

/-- C10: when no line of the input starts with `@@`, the line numbers of
the output records are non-decreasing in output order, and every line
number is at least 0. -/
theorem parsePatch_C10 (patch : String)
    (hno : ∀ l ∈ splitOnNl patch.data, startsWith ['@', '@'] l = false) :
    List.Pairwise (fun a b : Change => a.line ≤ b.line) (parsePatch patch) ∧
    ∀ ch ∈ parsePatch patch, 0 ≤ ch.line := by
  have h := processLines_mono hno 0
  exact ⟨List.Pairwise.sublist (List.take_sublist 10 _) h.2,
    fun ch _ => Nat.zero_le _⟩

/-- C10 witness: on a header-free input the recorded line numbers 1, 2,
2 are non-decreasing. -/
theorem parsePatch_C10_witness :
    List.Pairwise (fun a b : Change => a.line ≤ b.line)
      (parsePatch " x\n+a\n+b\n-c") :=
  (parsePatch_C10 " x\n+a\n+b\n-c" (by decide)).1
